import Mathlib

/-!
Verification of the 2D FFT convolution / autocorrelation engine of
`dvg_fftw_convolve2d.py` and `dvg_fftw_autocorrelate2d.py`.

The Python code drives two external libraries:

* `pyfftw` supplies `next_fast_len` and planned real-to-complex /
  complex-to-real transforms (`FFTW_FORWARD` / `FFTW_BACKWARD`).  A
  `pyfftw.FFTW` backward transform is normalised by default
  (`normalise_idft=True`), so the composition
  `irfft(rfft(a) * rfft(b))` on the zero-padded grid equals, by the
  discrete convolution theorem, the circular convolution of the two
  padded buffers, and `irfft(rfft(a) * conj(rfft(a)))` equals the
  circular autocorrelation of the padded buffer.  We embed the
  transform pipeline by these exact mathematical semantics over `ℚ`
  (the idealisation of the `float32` arithmetic).
* `numpy`/`numba` supply the slice assignments in `fast_fftshift`;
  an assignment `dst[...] = src` requires `src` to broadcast to the
  destination block (each source dimension equal to the destination
  dimension or equal to `1`), otherwise it raises.  We model a raising
  call as `Option.none`.

All array data is embedded as total functions `ℕ → ℕ → ℚ` together
with explicit `rows`/`cols` fields; only the values at indices below
the shape are meaningful.
-/

set_option maxRecDepth 4000

/-! ### pyfftw.next_fast_len -/

/-- Fuel-indexed repeated division: divide `n` by `p` while `p` divides `n`.
The fuel bounds the number of division steps; `strip` below supplies fuel `n`,
which suffices since each step at least halves `n`. -/
def stripAux : ℕ → ℕ → ℕ → ℕ
  | 0, _, n => n
  | fuel + 1, p, n => if 1 < p ∧ p ∣ n ∧ n ≠ 0 then stripAux fuel p (n / p) else n

/-- Remove every factor `p` from `n`. -/
def strip (p n : ℕ) : ℕ := stripAux n p n

/-- Modelled from the pyfftw documentation of `next_fast_len` (external
library, not part of this repository): a transform length is fast when it is
composite of the prime factors 2, 3, 5, 7, 11 and 13, the factors 11 and 13
occurring at most once.  After removing all factors 2, 3, 5 and 7 the
remainder must be `1`, `11`, `13` or `11 * 13 = 143`. -/
def isFastLen (n : ℕ) : Bool :=
  let m := strip 7 (strip 5 (strip 3 (strip 2 n)))
  m == 1 || m == 11 || m == 13 || m == 143

/-- Linear search for the first fast length, with explicit fuel. -/
def nextFastAux : ℕ → ℕ → ℕ
  | 0, m => m
  | fuel + 1, m => if isFastLen m then m else nextFastAux fuel (m + 1)

/-- Modelled from the pyfftw documentation of `next_fast_len`: the smallest
fast transform length that is at least `n`.  The fuel `2 ^ n` always reaches
the fast length `2 ^ n ≥ n`. -/
def next_fast_len (n : ℕ) : ℕ := nextFastAux (2 ^ n) n

/-! ### Array model -/

/-- A 2D numpy array of `float32` values, idealised over `ℚ`: an explicit
shape plus a total indexing function (only indices below the shape are
meaningful). -/
structure NDArr where
  rows : ℕ
  cols : ℕ
  data : ℕ → ℕ → ℚ

/-- Observational equality of arrays: same shape and the same values at every
in-range index. -/
def NDArr.eqv (a b : NDArr) : Prop :=
  a.rows = b.rows ∧ a.cols = b.cols ∧
    ∀ i < a.rows, ∀ j < a.cols, a.data i j = b.data i j

instance (a b : NDArr) : Decidable (a.eqv b) := by
  unfold NDArr.eqv; infer_instance

/-- Embeds the numpy slice assignment `buf[:m, :n] = A` used by both `convolve`
and `autocorrelate` to copy the caller input into the leading region of a
padded buffer: indices inside the leading `m × n` region read from `A`, all
others keep the previous buffer contents. -/
def write_leading (buf : ℕ → ℕ → ℚ) (m n : ℕ) (A : ℕ → ℕ → ℚ) : ℕ → ℕ → ℚ :=
  fun i j => if i < m ∧ j < n then A i j else buf i j

/-! ### fast_multiply and fast_multiply_p (complex elementwise multiply) -/

/-- A `complex64` value, idealised as a pair of rationals (re, im). -/
def Cplx : Type := ℚ × ℚ

/-- Complex multiplication on `Cplx`. -/
def cmul (x y : Cplx) : Cplx :=
  (x.1 * y.1 - x.2 * y.2, x.1 * y.2 + x.2 * y.1)

/-- Pointwise update of a buffer at one index, embedding a single
`out[i, j] = v` store. -/
def upd (buf : ℕ → ℕ → Cplx) (i j : ℕ) (v : Cplx) : ℕ → ℕ → Cplx :=
  fun x y => if x = i ∧ y = j then v else buf x y

/-- Embeds `fast_multiply` of both source files: the sequential nested loop
`for i in range(m): for j in range(n): out[i, j] = in1[i, j] * in2[i, j]`,
performed as a left fold of single stores over the row-major index order,
starting from the previous contents of `out`. -/
def fast_multiply (m n : ℕ) (in1 in2 out : ℕ → ℕ → Cplx) : ℕ → ℕ → Cplx :=
  (List.range m).foldl
    (fun buf i =>
      (List.range n).foldl
        (fun buf2 j => upd buf2 i j (cmul (in1 i j) (in2 i j))) buf)
    out

/-- Embeds `fast_multiply_p` of both source files: the `numba.prange` data
parallel variant.  Each `(i, j)` cell is written exactly once and no cell is
read, so the parallel execution is the pointwise merge of the independent
per-cell results over the previous contents of `out`. -/
def fast_multiply_p (m n : ℕ) (in1 in2 out : ℕ → ℕ → Cplx) : ℕ → ℕ → Cplx :=
  fun i j => if i < m ∧ j < n then cmul (in1 i j) (in2 i j) else out i j

/-! ### fast_fftshift -/

/-- Numpy broadcast compatibility of one source dimension against one
destination dimension in a slice assignment `dst[...] = src`: the source
extent must equal the destination extent or be `1`. -/
def bcastOK (src dst : ℕ) : Bool := src == dst || src == 1

/-- Embeds `fast_fftshift` of `dvg_fftw_autocorrelate2d.py`.  With
`hr = rows // 2`, `hc = cols // 2` the source performs four block
assignments into a fresh `shifted` array:

* `shifted[:hr, :hc] = C[hr:, hc:]`
* `shifted[:hr, hc:] = C[hr:, :hc]`
* `shifted[hr:, :hc] = C[:hr, hc:]`
* `shifted[hr:, hc:] = C[:hr, :hc]`

Each assignment requires its source block to broadcast to its destination
block (numpy semantics, checked per dimension by `bcastOK`); when any check
fails the call raises, modelled as `none`.  When all four checks pass the
block extents necessarily agree exactly (so no broadcast replication occurs)
and the result is the plain quadrant swap written below.  The input `C` is
never written to, so the embedding is a pure function of it. -/
def fast_fftshift (C : NDArr) : Option NDArr :=
  let rows := C.rows
  let cols := C.cols
  let hr := rows / 2
  let hc := cols / 2
  if (bcastOK (rows - hr) hr && bcastOK (cols - hc) hc) &&
     (bcastOK (rows - hr) hr && bcastOK hc (cols - hc)) &&
     (bcastOK hr (rows - hr) && bcastOK (cols - hc) hc) &&
     (bcastOK hr (rows - hr) && bcastOK hc (cols - hc)) then
    some
      { rows := rows
        cols := cols
        data := fun i j =>
          if i < hr then
            if j < hc then C.data (hr + i) (hc + j)
            else C.data (hr + i) (j - hc)
          else
            if j < hc then C.data (i - hr) (hc + j)
            else C.data (i - hr) (j - hc) }
  else none

/-! ### Spectral semantics of the planned transform pipeline -/

/-- Models the convolution spectral pipeline of
`FFTW_Convolver_Full2D.convolve`: the composition
`fast_multiply(rfft(a), rfft(b))` followed by the (normalised, pyfftw
default) backward transform.  By the discrete convolution theorem this
composition equals the circular convolution of the two padded buffers on the
`R × C` grid, which is what this definition computes directly. -/
def cconv (R C : ℕ) (a b : ℕ → ℕ → ℚ) : ℕ → ℕ → ℚ :=
  fun i j =>
    ∑ k in Finset.range R, ∑ l in Finset.range C,
      a k l * b ((i % R + (R - k)) % R) ((j % C + (C - l)) % C)

/-- Models the autocorrelation spectral pipeline of
`FFTW_Autocorrelator_2D.autocorrelate`: the composition
`fast_multiply(rfft(a), fast_conjugate(rfft(a)))` followed by the
(normalised, pyfftw default) backward transform.  By the discrete
convolution theorem this equals the circular autocorrelation of the padded
buffer on the `R × C` grid. -/
def cautocorr (R C : ℕ) (a : ℕ → ℕ → ℚ) : ℕ → ℕ → ℚ :=
  fun i j =>
    ∑ k in Finset.range R, ∑ l in Finset.range C,
      a k l * a ((k + i) % R) ((l + j) % C)

/-! ### FFTW_Convolver_Full2D -/

/-- Embeds an `FFTW_Convolver_Full2D` instance: the declared input shapes
`s1` and `s2` and the persistent contents of the two padded real input
buffers `_rfft_in1` and `_rfft_in2` (the only state that survives between
calls and influences results). -/
structure FFTW_Convolver_Full2D where
  s1r : ℕ
  s1c : ℕ
  s2r : ℕ
  s2c : ℕ
  rfft_in1 : ℕ → ℕ → ℚ
  rfft_in2 : ℕ → ℕ → ℚ

namespace FFTW_Convolver_Full2D

/-- Embeds `shape = [s1[i] + s2[i] - 1 for i in range(2)]` (row axis) of
`__init__`. -/
def shape0 (e : FFTW_Convolver_Full2D) : ℕ := e.s1r + e.s2r - 1

/-- Column-axis entry of `shape` in `__init__`. -/
def shape1 (e : FFTW_Convolver_Full2D) : ℕ := e.s1c + e.s2c - 1

/-- Embeds `self.fshape = [pyfftw.next_fast_len(shape[a]) for a in axes]`
(row axis). -/
def fshape0 (e : FFTW_Convolver_Full2D) : ℕ := next_fast_len e.shape0

/-- Column-axis entry of `self.fshape`. -/
def fshape1 (e : FFTW_Convolver_Full2D) : ℕ := next_fast_len e.shape1

/-- Embeds `FFTW_Convolver_Full2D.__init__`: records the declared shapes and
allocates the two padded input buffers with `pyfftw.zeros_aligned`, i.e.
filled with zeros. -/
def init (s1r s1c s2r s2c : ℕ) : FFTW_Convolver_Full2D :=
  { s1r := s1r, s1c := s1c, s2r := s2r, s2c := s2c
    rfft_in1 := fun _ _ => 0
    rfft_in2 := fun _ _ => 0 }

/-- Embeds `FFTW_Convolver_Full2D.convolve`: copy `in1` and `in2` into the
leading regions of the two padded buffers, run the planned transform
pipeline (`cconv` models the forward transforms, `fast_multiply` and the
normalised backward transform), and return the result sliced by
`self.fslice`, i.e. to the leading `shape0 × shape1` region (numpy slicing
clamps to the buffer extent, hence the `min`).  Returns the updated engine
state together with the result. -/
def convolve (e : FFTW_Convolver_Full2D) (in1 in2 : NDArr) :
    FFTW_Convolver_Full2D × NDArr :=
  let b1 := write_leading e.rfft_in1 in1.rows in1.cols in1.data
  let b2 := write_leading e.rfft_in2 in2.rows in2.cols in2.data
  ({ e with rfft_in1 := b1, rfft_in2 := b2 },
   { rows := min e.shape0 e.fshape0
     cols := min e.shape1 e.fshape1
     data := cconv e.fshape0 e.fshape1 b1 b2 })

end FFTW_Convolver_Full2D

/-! ### FFTW_Autocorrelator_2D -/

/-- Embeds an `FFTW_Autocorrelator_2D` instance: the declared input shape
`s1` and the persistent contents of the padded real input buffer
`_rfft_in`. -/
structure FFTW_Autocorrelator_2D where
  s1r : ℕ
  s1c : ℕ
  rfft_in : ℕ → ℕ → ℚ

namespace FFTW_Autocorrelator_2D

/-- Embeds `self.fshape = [pyfftw.next_fast_len(s1[a]) for a in axes]`
(row axis): the autocorrelator pads only to the declared input extent. -/
def fshape0 (e : FFTW_Autocorrelator_2D) : ℕ := next_fast_len e.s1r

/-- Column-axis entry of `self.fshape`. -/
def fshape1 (e : FFTW_Autocorrelator_2D) : ℕ := next_fast_len e.s1c

/-- Embeds `FFTW_Autocorrelator_2D.__init__`: records the declared shape and
allocates the padded input buffer with `pyfftw.zeros_aligned`. -/
def init (s1r s1c : ℕ) : FFTW_Autocorrelator_2D :=
  { s1r := s1r, s1c := s1c, rfft_in := fun _ _ => 0 }

/-- Embeds `FFTW_Autocorrelator_2D.autocorrelate`: copy `in1` into the
leading region of the padded buffer, run the planned pipeline (`cautocorr`
models `rfft`, conjugate multiply and the normalised backward transform),
slice by `self.fslice` to the leading `s1` region, divide elementwise by
`in1.size` (the element count `in1.rows * in1.cols` of the caller array),
and finally apply `fast_fftshift`, whose possible failure makes the result
an `Option`.  Returns the updated engine state together with the result. -/
def autocorrelate (e : FFTW_Autocorrelator_2D) (in1 : NDArr) :
    FFTW_Autocorrelator_2D × Option NDArr :=
  let b := write_leading e.rfft_in in1.rows in1.cols in1.data
  let c := cautocorr e.fshape0 e.fshape1 b
  let S : NDArr :=
    { rows := min e.s1r e.fshape0
      cols := min e.s1c e.fshape1
      data := fun i j => c i j / ((in1.rows : ℚ) * (in1.cols : ℚ)) }
  ({ e with rfft_in := b }, fast_fftshift S)

end FFTW_Autocorrelator_2D

/-! ### Concrete arrays used by witnesses and counterexamples -/

/-- The 3 × 3 all-ones array of the known-answer convolution test. -/
def ones33 : NDArr := { rows := 3, cols := 3, data := fun _ _ => 1 }

/-- The 1 × 1 unit impulse array. -/
def delta11 : NDArr := { rows := 1, cols := 1, data := fun _ _ => 1 }

/-- The reference result of convolving `ones33` with itself. -/
def refConv33 : ℕ → ℕ → ℚ := fun i j =>
  (([[1, 2, 3, 2, 1], [2, 4, 6, 4, 2], [3, 6, 9, 6, 3],
     [2, 4, 6, 4, 2], [1, 2, 3, 2, 1]] : List (List ℚ)).getD i []).getD j 0

/-- A 2 × 2 test array with a single nonzero entry at the origin. -/
def spike22 : NDArr :=
  { rows := 2, cols := 2, data := fun i j => if i = 0 ∧ j = 0 then 1 else 0 }

/-- Reads one entry of an optional result array, with default `0`; used to
state closed counterexamples without quantifying over the result. -/
def probe (o : Option NDArr) (i j : ℕ) : ℚ := o.elim 0 (fun R => R.data i j)

/-- A constant array of arbitrary shape, used as concrete witness input. -/
def constArr (r c : ℕ) (q : ℚ) : NDArr := { rows := r, cols := c, data := fun _ _ => q }

/-! ### Helper lemmas: modular index arithmetic -/

theorem mod_sub_eval (a m : ℕ) (h1 : m ≤ a) (h2 : a < 2 * m) : a % m = a - m := by
  rw [Nat.mod_eq_sub_mod h1]
  exact Nat.mod_eq_of_lt (by omega)

theorem add_mod_sub_cancel (P u k : ℕ) (hk : k < P) :
    ((k + u) % P + (P - u % P) % P) % P = k := by
  have hP : 0 < P := by omega
  have hdm : P * (u / P) + u % P = u := Nat.div_add_mod u P
  have hr : u % P < P := Nat.mod_lt _ hP
  rcases Nat.eq_zero_or_pos (u % P) with h0 | hpos
  · rw [h0, Nat.sub_zero, Nat.mod_self, Nat.add_zero, Nat.mod_mod_of_dvd _ dvd_rfl]
    rw [show k + u = k + P * (u / P) from by omega, Nat.add_mul_mod_self_left]
    exact Nat.mod_eq_of_lt hk
  · rw [Nat.mod_eq_of_lt (show P - u % P < P by omega), Nat.mod_add_mod]
    rw [show k + u + (P - u % P) = k + P * (u / P) + P from by omega]
    rw [Nat.add_mod_right, Nat.add_mul_mod_self_left]
    exact Nat.mod_eq_of_lt hk

theorem convIdx_eq_zero_iff (P i k : ℕ) (hi : i < P) (hk : k < P) :
    ((i % P + (P - k)) % P = 0) ↔ k = i := by
  rw [Nat.mod_eq_of_lt hi]
  rcases le_or_lt k i with h | h
  · rw [show i + (P - k) = i - k + P from by omega, Nat.add_mod_right,
      Nat.mod_eq_of_lt (by omega)]
    omega
  · rw [Nat.mod_eq_of_lt (by omega)]
    omega

theorem reflect_index (m i : ℕ) (h0 : 0 < m) (he : m % 2 = 0) (hi : i < m) :
    ((m - i) % m + m / 2) % m = (m - (i + m / 2) % m) % m := by
  rcases Nat.eq_zero_or_pos i with rfl | hip
  · rw [Nat.sub_zero, Nat.mod_self, Nat.zero_add,
      Nat.mod_eq_of_lt (show m / 2 < m by omega),
      Nat.mod_eq_of_lt (show m - m / 2 < m by omega)]
    omega
  · rw [Nat.mod_eq_of_lt (show m - i < m by omega)]
    rcases lt_or_ge i (m / 2) with hlt | hge
    · rw [Nat.mod_eq_of_lt (show i + m / 2 < m by omega),
        mod_sub_eval (m - i + m / 2) m (by omega) (by omega),
        Nat.mod_eq_of_lt (show m - (i + m / 2) < m by omega)]
      omega
    · rw [mod_sub_eval (i + m / 2) m (by omega) (by omega)]
      rcases Nat.eq_or_lt_of_le hge with heq | hgt
      · rw [show m - i + m / 2 = m from by omega, Nat.mod_self,
          show i + m / 2 - m = 0 from by omega, Nat.sub_zero, Nat.mod_self]
      · rw [Nat.mod_eq_of_lt (show m - i + m / 2 < m by omega),
          Nat.mod_eq_of_lt (show m - (i + m / 2 - m) < m by omega)]
        omega

theorem double_shift_index (m i : ℕ) (he : m % 2 = 0) (hi : i < m) :
    ((i + m / 2) % m + m / 2) % m = i := by
  rcases lt_or_ge i (m / 2) with h | h
  · rw [Nat.mod_eq_of_lt (show i + m / 2 < m by omega),
      mod_sub_eval (i + m / 2 + m / 2) m (by omega) (by omega)]
    omega
  · rw [mod_sub_eval (i + m / 2) m (by omega) (by omega),
      Nat.mod_eq_of_lt (show i + m / 2 - m + m / 2 < m by omega)]
    omega

/-! ### Helper lemmas: next_fast_len -/

theorem nextFastAux_le (fuel m : ℕ) : m ≤ nextFastAux fuel m := by
  induction fuel generalizing m with
  | zero => exact le_refl m
  | succ fuel ih =>
      rw [nextFastAux]
      split
      · exact le_refl m
      · exact le_trans (Nat.le_succ m) (ih (m + 1))

theorem nextFastAux_fast (fuel m k : ℕ) (hk : k ≤ fuel)
    (h : isFastLen (m + k) = true) : isFastLen (nextFastAux fuel m) = true := by
  induction fuel generalizing m k with
  | zero =>
      have : k = 0 := by omega
      subst this
      simpa using h
  | succ fuel ih =>
      rw [nextFastAux]
      split
      · assumption
      · rcases Nat.eq_zero_or_pos k with rfl | hkp
        · simp_all
        · exact ih (m + 1) (k - 1) (by omega) (by rw [show m + 1 + (k - 1) = m + k from by omega]; exact h)

theorem stripAux_two_pow (fuel j : ℕ) (hj : j ≤ fuel) : stripAux fuel 2 (2 ^ j) = 1 := by
  induction fuel generalizing j with
  | zero =>
      have : j = 0 := by omega
      subst this
      simp [stripAux]
  | succ fuel ih =>
      cases j with
      | zero =>
          rw [pow_zero, stripAux, if_neg]
          rintro ⟨-, hd, -⟩
          omega
      | succ j =>
          rw [stripAux, if_pos]
          · rw [show 2 ^ (j + 1) / 2 = 2 ^ j from by rw [pow_succ]; exact Nat.mul_div_cancel _ (by omega)]
            exact ih j (by omega)
          · refine ⟨by omega, dvd_pow_self 2 (Nat.succ_ne_zero j), by positivity⟩

theorem strip_one (p : ℕ) : strip p 1 = 1 := by
  rw [strip, stripAux, if_neg]
  rintro ⟨hp, hd, -⟩
  have h1 : p = 1 := Nat.dvd_one.mp hd
  omega

theorem isFastLen_two_pow (k : ℕ) : isFastLen (2 ^ k) = true := by
  have h2 : strip 2 (2 ^ k) = 1 :=
    stripAux_two_pow (2 ^ k) k (le_of_lt (Nat.lt_two_pow k))
  rw [isFastLen]
  rw [h2, strip_one, strip_one, strip_one]
  rfl

theorem next_fast_len_le (n : ℕ) : n ≤ next_fast_len n := nextFastAux_le (2 ^ n) n

theorem next_fast_len_fast (n : ℕ) : isFastLen (next_fast_len n) = true := by
  refine nextFastAux_fast (2 ^ n) n (2 ^ n - n) (Nat.sub_le _ _) ?_
  rw [show n + (2 ^ n - n) = 2 ^ n from by have := le_of_lt (Nat.lt_two_pow n); omega]
  exact isFastLen_two_pow n

theorem isFastLen_zero : isFastLen 0 = false := rfl

theorem next_fast_len_pos (n : ℕ) : 0 < next_fast_len n := by
  rcases Nat.eq_zero_or_pos (next_fast_len n) with h | h
  · have := next_fast_len_fast n
    rw [h, isFastLen_zero] at this
    cases this
  · exact h

/-! ### Helper lemmas: circular sums -/

theorem sum_range_shift (R t : ℕ) (F : ℕ → ℚ) :
    ∑ k in Finset.range R, F ((k + t) % R) = ∑ k in Finset.range R, F k := by
  cases R with
  | zero => simp
  | succ n =>
      rw [← Fin.sum_univ_eq_sum_range (fun k => F ((k + t) % (n + 1))) (n + 1),
        ← Fin.sum_univ_eq_sum_range F (n + 1)]
      have hc : t % (n + 1) < n + 1 := Nat.mod_lt _ (Nat.succ_pos n)
      refine Fintype.sum_equiv (Equiv.addRight (⟨t % (n + 1), hc⟩ : Fin (n + 1)))
        (fun k => F ((k.val + t) % (n + 1))) (fun k => F k.val) ?_
      intro x
      show F ((x.val + t) % (n + 1)) = F ((x.val + t % (n + 1)) % (n + 1))
      rw [Nat.add_mod x.val t, Nat.mod_eq_of_lt x.isLt]

theorem cautocorr_apply (R C : ℕ) (a : ℕ → ℕ → ℚ) (i j : ℕ) :
    cautocorr R C a i j =
      ∑ k in Finset.range R, ∑ l in Finset.range C,
        a k l * a ((k + i) % R) ((l + j) % C) := rfl

theorem cautocorr_zero (R C : ℕ) (a : ℕ → ℕ → ℚ) :
    cautocorr R C a 0 0 =
      ∑ k in Finset.range R, ∑ l in Finset.range C, a k l * a k l := by
  rw [cautocorr_apply]
  refine Finset.sum_congr rfl ?_
  intro k hk
  refine Finset.sum_congr rfl ?_
  intro l hl
  rw [Nat.add_zero, Nat.add_zero, Nat.mod_eq_of_lt (Finset.mem_range.mp hk),
    Nat.mod_eq_of_lt (Finset.mem_range.mp hl)]

theorem cautocorr_le_center (R C : ℕ) (a : ℕ → ℕ → ℚ) (u v : ℕ) :
    cautocorr R C a u v ≤ cautocorr R C a 0 0 := by
  rw [cautocorr_apply, cautocorr_zero]
  rw [← Finset.sum_product' (Finset.range R) (Finset.range C)
        (fun k l => a k l * a ((k + u) % R) ((l + v) % C)),
    ← Finset.sum_product' (Finset.range R) (Finset.range C) (fun k l => a k l * a k l)]
  set s := Finset.range R ×ˢ Finset.range C with hs
  have hshift :
      (∑ p in s, a ((p.1 + u) % R) ((p.2 + v) % C) * a ((p.1 + u) % R) ((p.2 + v) % C)) =
        ∑ p in s, a p.1 p.2 * a p.1 p.2 := by
    rw [hs, Finset.sum_product' (Finset.range R) (Finset.range C)
        (fun k l => a ((k + u) % R) ((l + v) % C) * a ((k + u) % R) ((l + v) % C)),
      Finset.sum_product' (Finset.range R) (Finset.range C) (fun k l => a k l * a k l)]
    rw [sum_range_shift R u
      (fun x => ∑ l in Finset.range C, a x ((l + v) % C) * a x ((l + v) % C))]
    refine Finset.sum_congr rfl ?_
    intro k hk
    exact sum_range_shift C v (fun y => a k y * a k y)
  have hcs := Finset.sum_mul_sq_le_sq_mul_sq s
    (fun p => a p.1 p.2) (fun p => a ((p.1 + u) % R) ((p.2 + v) % C))
  have hsq : ∀ x : ℚ, x ^ 2 = x * x := fun x => sq x
  rw [hsq] at hcs
  simp only [hsq] at hcs
  rw [hshift] at hcs
  have hnn : (0 : ℚ) ≤ ∑ p in s, a p.1 p.2 * a p.1 p.2 :=
    Finset.sum_nonneg (fun p _ => mul_self_nonneg _)
  nlinarith [hcs, hnn]

theorem cautocorr_mod (R C : ℕ) (a : ℕ → ℕ → ℚ) (u v : ℕ) :
    cautocorr R C a (u % R) (v % C) = cautocorr R C a u v := by
  rw [cautocorr_apply, cautocorr_apply]
  refine Finset.sum_congr rfl fun k _ => Finset.sum_congr rfl fun l _ => ?_
  rw [Nat.add_mod k u R, Nat.add_mod k (u % R) R, Nat.mod_mod_of_dvd _ dvd_rfl,
    Nat.add_mod l v C, Nat.add_mod l (v % C) C, Nat.mod_mod_of_dvd _ dvd_rfl]

theorem cautocorr_reflect (R C : ℕ) (a : ℕ → ℕ → ℚ) (u v : ℕ) :
    cautocorr R C a ((R - u % R) % R) ((C - v % C) % C) = cautocorr R C a u v := by
  rw [cautocorr_apply, cautocorr_apply]
  rw [← sum_range_shift R u (fun x =>
    ∑ l in Finset.range C,
      a x l * a ((x + (R - u % R) % R) % R) ((l + (C - v % C) % C) % C))]
  refine Finset.sum_congr rfl ?_
  intro k hk
  rw [← sum_range_shift C v (fun y =>
    a ((k + u) % R) y * a (((k + u) % R + (R - u % R) % R) % R) ((y + (C - v % C) % C) % C))]
  refine Finset.sum_congr rfl ?_
  intro l hl
  rw [add_mod_sub_cancel R u k (Finset.mem_range.mp hk),
    add_mod_sub_cancel C v l (Finset.mem_range.mp hl)]
  exact mul_comm _ _

theorem sum_pad (P Q m n : ℕ) (hm : m ≤ P) (hn : n ≤ Q) (A : ℕ → ℕ → ℚ) :
    ∑ k in Finset.range P, ∑ l in Finset.range Q,
        write_leading (fun _ _ => 0) m n A k l * write_leading (fun _ _ => 0) m n A k l =
      ∑ k in Finset.range m, ∑ l in Finset.range n, A k l * A k l := by
  rw [← Finset.sum_subset (Finset.range_subset.mpr hm) ?hout]
  case hout =>
    intro k hk hks
    refine Finset.sum_eq_zero fun l hl => ?_
    rw [write_leading, if_neg (by simp at hks; omega)]
    ring
  refine Finset.sum_congr rfl ?_
  intro k hk
  rw [← Finset.sum_subset (Finset.range_subset.mpr hn) ?hinn]
  case hinn =>
    intro l hl hls
    rw [write_leading, if_neg (by simp at hls; omega)]
    ring
  refine Finset.sum_congr rfl ?_
  intro l hl
  rw [write_leading, if_pos ⟨Finset.mem_range.mp hk, Finset.mem_range.mp hl⟩]

/-! ### Helper lemmas: fast_fftshift on even shapes -/

theorem fast_fftshift_spec (A : NDArr) (h0 : A.rows % 2 = 0) (h1 : A.cols % 2 = 0) :
    ∃ D, fast_fftshift A = some D ∧ D.rows = A.rows ∧ D.cols = A.cols ∧
      ∀ i < A.rows, ∀ j < A.cols,
        D.data i j = A.data ((i + A.rows / 2) % A.rows) ((j + A.cols / 2) % A.cols) := by
  refine ⟨{ rows := A.rows, cols := A.cols, data := fun i j =>
      if i < A.rows / 2 then
        if j < A.cols / 2 then A.data (A.rows / 2 + i) (A.cols / 2 + j)
        else A.data (A.rows / 2 + i) (j - A.cols / 2)
      else
        if j < A.cols / 2 then A.data (i - A.rows / 2) (A.cols / 2 + j)
        else A.data (i - A.rows / 2) (j - A.cols / 2) }, ?_, rfl, rfl, ?_⟩
  · simp only [fast_fftshift]
    rw [if_pos]
    rw [show A.rows - A.rows / 2 = A.rows / 2 from by omega,
      show A.cols - A.cols / 2 = A.cols / 2 from by omega]
    simp [bcastOK]
  · intro i hi j hj
    dsimp only
    by_cases hI : i < A.rows / 2
    · by_cases hJ : j < A.cols / 2
      · rw [if_pos hI, if_pos hJ,
          show (i + A.rows / 2) % A.rows = A.rows / 2 + i from by
            rw [Nat.mod_eq_of_lt (by omega)]; omega,
          show (j + A.cols / 2) % A.cols = A.cols / 2 + j from by
            rw [Nat.mod_eq_of_lt (by omega)]; omega]
      · rw [if_pos hI, if_neg hJ,
          show (i + A.rows / 2) % A.rows = A.rows / 2 + i from by
            rw [Nat.mod_eq_of_lt (by omega)]; omega,
          show (j + A.cols / 2) % A.cols = j - A.cols / 2 from by
            rw [mod_sub_eval _ _ (by omega) (by omega)]; omega]
    · by_cases hJ : j < A.cols / 2
      · rw [if_neg hI, if_pos hJ,
          show (i + A.rows / 2) % A.rows = i - A.rows / 2 from by
            rw [mod_sub_eval _ _ (by omega) (by omega)]; omega,
          show (j + A.cols / 2) % A.cols = A.cols / 2 + j from by
            rw [Nat.mod_eq_of_lt (by omega)]; omega]
      · rw [if_neg hI, if_neg hJ,
          show (i + A.rows / 2) % A.rows = i - A.rows / 2 from by
            rw [mod_sub_eval _ _ (by omega) (by omega)]; omega,
          show (j + A.cols / 2) % A.cols = j - A.cols / 2 from by
            rw [mod_sub_eval _ _ (by omega) (by omega)]; omega]

/-! ### Helper lemmas: buffer writes -/

theorem write_leading_idem (buf : ℕ → ℕ → ℚ) (m n : ℕ) (A : ℕ → ℕ → ℚ) :
    write_leading (write_leading buf m n A) m n A = write_leading buf m n A := by
  funext i j
  by_cases h : i < m ∧ j < n <;> simp [write_leading, h]

/-! ### Helper lemmas: fast_multiply as a loop of stores -/

theorem foldl_row (n : ℕ) (i : ℕ) (v : ℕ → Cplx) (buf : ℕ → ℕ → Cplx) (x y : ℕ) :
    ((List.range n).foldl (fun b j => upd b i j (v j)) buf) x y =
      if x = i ∧ y < n then v y else buf x y := by
  induction n with
  | zero => simp
  | succ n ih =>
      rw [List.range_succ, List.foldl_append, List.foldl_cons, List.foldl_nil]
      simp only [upd]
      by_cases hx : x = i ∧ y = n
      · rw [if_pos hx, if_pos ⟨hx.1, by omega⟩, hx.2]
      · rw [if_neg hx, ih]
        by_cases h2 : x = i ∧ y < n
        · rw [if_pos h2, if_pos ⟨h2.1, by omega⟩]
        · rw [if_neg h2, if_neg ?hne]
          case hne =>
            rintro ⟨h3, h4⟩
            rcases Nat.lt_succ_iff_lt_or_eq.mp h4 with h | h
            · exact h2 ⟨h3, h⟩
            · exact hx ⟨h3, h⟩

theorem fast_multiply_apply (m n : ℕ) (in1 in2 out : ℕ → ℕ → Cplx) (x y : ℕ) :
    fast_multiply m n in1 in2 out x y =
      if x < m ∧ y < n then cmul (in1 x y) (in2 x y) else out x y := by
  induction m with
  | zero => simp [fast_multiply]
  | succ m ih =>
      simp only [fast_multiply]
      rw [List.range_succ, List.foldl_append, List.foldl_cons, List.foldl_nil]
      rw [foldl_row]
      simp only [fast_multiply] at ih
      by_cases hx : x = m ∧ y < n
      · rw [if_pos hx, if_pos ⟨by omega, hx.2⟩, hx.1]
      · rw [if_neg hx, ih]
        by_cases h2 : x < m ∧ y < n
        · rw [if_pos h2, if_pos ⟨by omega, h2.2⟩]
        · rw [if_neg h2, if_neg ?hne]
          case hne =>
            rintro ⟨h3, h4⟩
            rcases Nat.lt_succ_iff_lt_or_eq.mp h3 with h | h
            · exact h2 ⟨h, h4⟩
            · exact hx ⟨h, h4⟩

/-! ### Claim theorems -/

/-- C7: for every pair of equal-shape complex matrices `in1`, `in2` and output
buffer `out` of the same shape, the scalar kernel `fast_multiply` and the data
parallel kernel `fast_multiply_p` leave identical contents in `out` (the
elementwise product `in1[i,j] * in2[i,j]`); in the exact model the results are
equal outright.  Proved for all buffers and loop bounds, which covers the
equal-shape instances of the claim. -/
theorem fast_multiply_eq_fast_multiply_p (m n : ℕ) (in1 in2 out : ℕ → ℕ → Cplx) :
    fast_multiply m n in1 in2 out = fast_multiply_p m n in1 in2 out := by
  funext x y
  rw [fast_multiply_apply]
  rfl

/-- C8: for both engines, calling the compute entry point twice in a row with
the same input (of the declared shape) on the same engine instance returns
identical output both times: the buffer reuse between calls does not change
the result, because the second leading-region write overwrites the first one
with the same data and the padding region is never touched. -/
theorem repeated_call_stability :
    (∀ (e : FFTW_Convolver_Full2D) (in1 in2 : NDArr),
      in1.rows = e.s1r → in1.cols = e.s1c → in2.rows = e.s2r → in2.cols = e.s2c →
      ((e.convolve in1 in2).1.convolve in1 in2).2 = (e.convolve in1 in2).2) ∧
    (∀ (e : FFTW_Autocorrelator_2D) (in1 : NDArr),
      in1.rows = e.s1r → in1.cols = e.s1c →
      ((e.autocorrelate in1).1.autocorrelate in1).2 = (e.autocorrelate in1).2) := by
  constructor
  · intro e in1 in2 _ _ _ _
    simp only [FFTW_Convolver_Full2D.convolve, FFTW_Convolver_Full2D.fshape0,
      FFTW_Convolver_Full2D.fshape1, FFTW_Convolver_Full2D.shape0,
      FFTW_Convolver_Full2D.shape1]
    rw [write_leading_idem, write_leading_idem]
  · intro e in1 _ _
    simp only [FFTW_Autocorrelator_2D.autocorrelate, FFTW_Autocorrelator_2D.fshape0,
      FFTW_Autocorrelator_2D.fshape1]
    rw [write_leading_idem]

/-- Witness for C8 at concrete engines and inputs. -/
theorem repeated_call_stability_witness :
    (ones33.rows = (FFTW_Convolver_Full2D.init 3 3 3 3).s1r ∧
      spike22.rows = (FFTW_Autocorrelator_2D.init 2 2).s1r) ∧
    ((((FFTW_Convolver_Full2D.init 3 3 3 3).convolve ones33 ones33).1.convolve
        ones33 ones33).2 =
      ((FFTW_Convolver_Full2D.init 3 3 3 3).convolve ones33 ones33).2) ∧
    ((((FFTW_Autocorrelator_2D.init 2 2).autocorrelate spike22).1.autocorrelate
        spike22).2 =
      ((FFTW_Autocorrelator_2D.init 2 2).autocorrelate spike22).2) :=
  ⟨⟨rfl, rfl⟩,
    repeated_call_stability.1 (FFTW_Convolver_Full2D.init 3 3 3 3) ones33 ones33
      rfl rfl rfl rfl,
    repeated_call_stability.2 (FFTW_Autocorrelator_2D.init 2 2) spike22 rfl rfl⟩

/-- C9 (amended): per axis, the Convolver padded length is a fast transform
length at least the full-convolution length `s1 + s2 - 1`, and the
Autocorrelator padded length is a fast transform length at least the declared
input length (the Autocorrelator does not expand to the full `2 n - 1`
autocorrelation length; that part of the original claim is refuted by the
counterexample). -/
theorem padded_shape_invariant :
    (∀ e : FFTW_Convolver_Full2D,
      e.shape0 ≤ e.fshape0 ∧ e.shape1 ≤ e.fshape1 ∧
      isFastLen e.fshape0 = true ∧ isFastLen e.fshape1 = true) ∧
    (∀ e : FFTW_Autocorrelator_2D,
      e.s1r ≤ e.fshape0 ∧ e.s1c ≤ e.fshape1 ∧
      isFastLen e.fshape0 = true ∧ isFastLen e.fshape1 = true) :=
  ⟨fun _ => ⟨next_fast_len_le _, next_fast_len_le _,
      next_fast_len_fast _, next_fast_len_fast _⟩,
    fun _ => ⟨next_fast_len_le _, next_fast_len_le _,
      next_fast_len_fast _, next_fast_len_fast _⟩⟩

/-- C9 counterexample: for the Autocorrelator declared with shape `(4, 4)` the
padded row length is `next_fast_len 4 = 4`, strictly below the length
`2 * 4 - 1 = 7` required for a full non-circular autocorrelation, refuting
the claimed invariant for the autocorrelation engine. -/
theorem padded_shape_counterexample :
    (FFTW_Autocorrelator_2D.init 4 4).fshape0 <
      2 * (FFTW_Autocorrelator_2D.init 4 4).s1r - 1 := by decide

/-- C2 (amended): for a matrix with even row and column counts,
`fast_fftshift` returns a new matrix of the same shape with the four
quadrants swapped diagonally, each axis split at `n / 2`; equivalently each
axis is rolled by half its length.  The embedding is a pure function of the
input (the source writes only into the fresh `shifted` array), so the input
is not mutated.  For odd dimensions the original claim fails: the block
assignments raise a broadcast error (see the counterexample). -/
theorem fast_fftshift_even_swap (C : NDArr) (h0 : C.rows % 2 = 0)
    (h1 : C.cols % 2 = 0) :
    ∃ D, fast_fftshift C = some D ∧ D.rows = C.rows ∧ D.cols = C.cols ∧
      ∀ i < C.rows, ∀ j < C.cols,
        D.data i j = C.data ((i + C.rows / 2) % C.rows) ((j + C.cols / 2) % C.cols) :=
  fast_fftshift_spec C h0 h1

/-- Witness for C2 at a concrete even-shape matrix. -/
theorem fast_fftshift_even_swap_witness :
    (spike22.rows % 2 = 0 ∧ spike22.cols % 2 = 0) ∧
    ∃ D, fast_fftshift spike22 = some D ∧ D.rows = spike22.rows ∧
      D.cols = spike22.cols ∧
      ∀ i < spike22.rows, ∀ j < spike22.cols,
        D.data i j = spike22.data ((i + spike22.rows / 2) % spike22.rows)
          ((j + spike22.cols / 2) % spike22.cols) :=
  ⟨⟨rfl, rfl⟩, fast_fftshift_even_swap spike22 rfl rfl⟩

/-- C2 counterexample: on the 3 × 3 all-ones matrix (odd dimensions) the
claim fails: `fast_fftshift` raises a broadcast error (the first block
assignment tries to write a 2 × 2 source into a 1 × 1 destination), so no
matrix is returned at all. -/
theorem fast_fftshift_odd_counterexample : fast_fftshift ones33 = none := rfl

/-- C10: for every matrix whose row and column counts are both even, applying
`fast_fftshift` twice returns a matrix equal to the original: the quadrant
swap is an involution on even-by-even matrices. -/
theorem fast_fftshift_involutive (A : NDArr) (h0 : A.rows % 2 = 0)
    (h1 : A.cols % 2 = 0) :
    ∃ D E, fast_fftshift A = some D ∧ fast_fftshift D = some E ∧
      E.rows = A.rows ∧ E.cols = A.cols ∧
      ∀ i < A.rows, ∀ j < A.cols, E.data i j = A.data i j := by
  obtain ⟨D, hD, hDr, hDc, hDdata⟩ := fast_fftshift_spec A h0 h1
  obtain ⟨E, hE, hEr, hEc, hEdata⟩ :=
    fast_fftshift_spec D (by rw [hDr]; exact h0) (by rw [hDc]; exact h1)
  refine ⟨D, E, hD, hE, by rw [hEr, hDr], by rw [hEc, hDc], ?_⟩
  intro i hi j hj
  have hm : 0 < A.rows := by omega
  have hn : 0 < A.cols := by omega
  rw [hEdata i (by rw [hDr]; exact hi) j (by rw [hDc]; exact hj), hDr, hDc]
  rw [hDdata ((i + A.rows / 2) % A.rows) (Nat.mod_lt _ hm)
    ((j + A.cols / 2) % A.cols) (Nat.mod_lt _ hn)]
  rw [double_shift_index A.rows i h0 hi, double_shift_index A.cols j h1 hj]

/-- Witness for C10 at a concrete even-shape matrix. -/
theorem fast_fftshift_involutive_witness :
    (spike22.rows % 2 = 0 ∧ spike22.cols % 2 = 0) ∧
    ∃ D E, fast_fftshift spike22 = some D ∧ fast_fftshift D = some E ∧
      E.rows = spike22.rows ∧ E.cols = spike22.cols ∧
      ∀ i < spike22.rows, ∀ j < spike22.cols, E.data i j = spike22.data i j :=
  ⟨⟨rfl, rfl⟩, fast_fftshift_involutive spike22 rfl rfl⟩

/-- C6: convolving any array `A` with the 1 × 1 unit impulse (through a
Convolver constructed for shapes `(A.shape, (1, 1))`) returns an array equal
to `A`, with the same shape, since the output shape is `A.shape + (0, 0)`.
Equality is observational: same shape and same entries at every in-range
index. -/
theorem convolve_delta_identity (A : NDArr) :
    NDArr.eqv ((FFTW_Convolver_Full2D.init A.rows A.cols 1 1).convolve A delta11).2 A := by
  simp only [FFTW_Convolver_Full2D.convolve, FFTW_Convolver_Full2D.init,
    FFTW_Convolver_Full2D.shape0, FFTW_Convolver_Full2D.shape1,
    FFTW_Convolver_Full2D.fshape0, FFTW_Convolver_Full2D.fshape1, delta11,
    Nat.add_sub_cancel]
  refine ⟨min_eq_left (next_fast_len_le _), min_eq_left (next_fast_len_le _), ?_⟩
  intro i hi j hj
  simp only at hi hj
  have hiA : i < A.rows := lt_of_lt_of_le hi (min_le_left _ _)
  have hjA : j < A.cols := lt_of_lt_of_le hj (min_le_left _ _)
  have hiP : i < next_fast_len A.rows := lt_of_lt_of_le hiA (next_fast_len_le _)
  have hjQ : j < next_fast_len A.cols := lt_of_lt_of_le hjA (next_fast_len_le _)
  simp only [cconv]
  rw [Finset.sum_eq_single i ?hrow ?hmem]
  case hrow =>
    intro k hk hki
    refine Finset.sum_eq_zero fun l _ => ?_
    have hkP : k < next_fast_len A.rows := Finset.mem_range.mp hk
    have hne : (i % next_fast_len A.rows + (next_fast_len A.rows - k)) %
        next_fast_len A.rows ≠ 0 :=
      fun hz => hki ((convIdx_eq_zero_iff _ i k hiP hkP).mp hz)
    rw [show write_leading (fun _ _ => 0) 1 1 (fun _ _ => (1 : ℚ))
        ((i % next_fast_len A.rows + (next_fast_len A.rows - k)) % next_fast_len A.rows)
        ((j % next_fast_len A.cols + (next_fast_len A.cols - l)) % next_fast_len A.cols)
        = 0 from by rw [write_leading, if_neg]; rintro ⟨hlt, -⟩; omega]
    exact mul_zero _
  case hmem =>
    intro hmem
    exact absurd (Finset.mem_range.mpr hiP) hmem
  rw [Finset.sum_eq_single j ?hcol ?hmem2]
  case hcol =>
    intro l hl hlj
    have hlQ : l < next_fast_len A.cols := Finset.mem_range.mp hl
    have hne : (j % next_fast_len A.cols + (next_fast_len A.cols - l)) %
        next_fast_len A.cols ≠ 0 :=
      fun hz => hlj ((convIdx_eq_zero_iff _ j l hjQ hlQ).mp hz)
    rw [show write_leading (fun _ _ => 0) 1 1 (fun _ _ => (1 : ℚ))
        ((i % next_fast_len A.rows + (next_fast_len A.rows - i)) % next_fast_len A.rows)
        ((j % next_fast_len A.cols + (next_fast_len A.cols - l)) % next_fast_len A.cols)
        = 0 from by rw [write_leading, if_neg]; rintro ⟨-, hlt⟩; omega]
    exact mul_zero _
  case hmem2 =>
    intro hmem
    exact absurd (Finset.mem_range.mpr hjQ) hmem
  rw [(convIdx_eq_zero_iff _ i i hiP hiP).mpr rfl,
    (convIdx_eq_zero_iff _ j j hjQ hjQ).mpr rfl]
  rw [show write_leading (fun _ _ => 0) 1 1 (fun _ _ => (1 : ℚ)) 0 0 = 1 from by
    rw [write_leading, if_pos ⟨Nat.one_pos, Nat.one_pos⟩]]
  rw [show write_leading (fun _ _ => 0) A.rows A.cols A.data i j = A.data i j from by
    rw [write_leading, if_pos ⟨hiA, hjA⟩]]
  exact mul_one _

/-! ### Helper: characterisation of a successful autocorrelate call -/

theorem autocorrelate_spec (e : FFTW_Autocorrelator_2D) (in1 : NDArr)
    (he0 : e.s1r % 2 = 0) (he1 : e.s1c % 2 = 0) :
    ∃ R, (e.autocorrelate in1).2 = some R ∧ R.rows = e.s1r ∧ R.cols = e.s1c ∧
      ∀ i < e.s1r, ∀ j < e.s1c,
        R.data i j =
          cautocorr (next_fast_len e.s1r) (next_fast_len e.s1c)
              (write_leading e.rfft_in in1.rows in1.cols in1.data)
              ((i + e.s1r / 2) % e.s1r) ((j + e.s1c / 2) % e.s1c) /
            ((in1.rows : ℚ) * (in1.cols : ℚ)) := by
  have hle0 := next_fast_len_le e.s1r
  have hle1 := next_fast_len_le e.s1c
  have hmin0 : min e.s1r (next_fast_len e.s1r) = e.s1r := min_eq_left hle0
  have hmin1 : min e.s1c (next_fast_len e.s1c) = e.s1c := min_eq_left hle1
  obtain ⟨D, hD, hDr, hDc, hDd⟩ := fast_fftshift_spec
    { rows := min e.s1r (next_fast_len e.s1r)
      cols := min e.s1c (next_fast_len e.s1c)
      data := fun i j =>
        cautocorr (next_fast_len e.s1r) (next_fast_len e.s1c)
            (write_leading e.rfft_in in1.rows in1.cols in1.data) i j /
          ((in1.rows : ℚ) * (in1.cols : ℚ)) }
    (by show min e.s1r (next_fast_len e.s1r) % 2 = 0; rw [hmin0]; exact he0)
    (by show min e.s1c (next_fast_len e.s1c) % 2 = 0; rw [hmin1]; exact he1)
  dsimp only at hDr hDc hDd
  rw [hmin0] at hDr hDd
  rw [hmin1] at hDc hDd
  refine ⟨D, hD, hDr, hDc, ?_⟩
  intro i hi j hj
  exact hDd i hi j hj

/-- C1 (amended): a Convolver call returns an array of shape
`(s1[0] + s2[0] - 1, s1[1] + s2[1] - 1)`; an Autocorrelator call on an engine
whose declared shape has even row and column counts returns an array of shape
`s1`.  The evenness restriction on the Autocorrelator is forced by the
counterexample: for odd declared shapes the final spectral shift raises, so
no array is returned. -/
theorem shape_correctness :
    (∀ (e : FFTW_Convolver_Full2D) (in1 in2 : NDArr),
      0 < e.s1r → 0 < e.s1c → 0 < e.s2r → 0 < e.s2c →
      (e.convolve in1 in2).2.rows = e.s1r + e.s2r - 1 ∧
      (e.convolve in1 in2).2.cols = e.s1c + e.s2c - 1) ∧
    (∀ (e : FFTW_Autocorrelator_2D) (in1 : NDArr),
      e.s1r % 2 = 0 → e.s1c % 2 = 0 →
      ∃ R, (e.autocorrelate in1).2 = some R ∧ R.rows = e.s1r ∧ R.cols = e.s1c) := by
  constructor
  · intro e in1 in2 _ _ _ _
    exact ⟨min_eq_left (next_fast_len_le _), min_eq_left (next_fast_len_le _)⟩
  · intro e in1 he0 he1
    obtain ⟨R, hR, hr, hc, -⟩ := autocorrelate_spec e in1 he0 he1
    exact ⟨R, hR, hr, hc⟩

/-- Witness for C1 at concrete engines and inputs. -/
theorem shape_correctness_witness :
    (0 < (FFTW_Convolver_Full2D.init 2 3 4 5).s1r ∧
      (FFTW_Autocorrelator_2D.init 2 2).s1r % 2 = 0) ∧
    (((FFTW_Convolver_Full2D.init 2 3 4 5).convolve (constArr 2 3 0)
        (constArr 4 5 0)).2.rows = 2 + 4 - 1) ∧
    ∃ R, ((FFTW_Autocorrelator_2D.init 2 2).autocorrelate (constArr 2 2 1)).2 =
        some R ∧ R.rows = 2 ∧ R.cols = 2 :=
  ⟨⟨by decide, rfl⟩,
    (shape_correctness.1 (FFTW_Convolver_Full2D.init 2 3 4 5) (constArr 2 3 0)
      (constArr 4 5 0) (by decide) (by decide) (by decide) (by decide)).1,
    shape_correctness.2 (FFTW_Autocorrelator_2D.init 2 2) (constArr 2 2 1) rfl rfl⟩

/-- C1 counterexample: for the odd declared shape `(3, 3)` the claim fails:
`autocorrelate` does not return an array of shape `s1`, because the final
`fast_fftshift` raises a broadcast error, so no array is returned at all. -/
theorem shape_correctness_counterexample :
    ((FFTW_Autocorrelator_2D.init 3 3).autocorrelate ones33).2 = none := rfl

/-- Evaluation of `next_fast_len` at the two concrete sizes used below. -/
theorem next_fast_len_five : next_fast_len 5 = 5 := by decide

theorem next_fast_len_two : next_fast_len 2 = 2 := by decide

/-- C3: convolving the 3 × 3 all-ones array with itself through a Convolver
constructed for shapes `((3,3), (3,3))` returns, elementwise within a
tolerance of `1/10000` (here in fact exactly), the 5 × 5 reference matrix
`[[1,2,3,2,1],[2,4,6,4,2],[3,6,9,6,3],[2,4,6,4,2],[1,2,3,2,1]]`. -/
theorem known_answer_convolution :
    (((FFTW_Convolver_Full2D.init 3 3 3 3).convolve ones33 ones33).2.rows = 5) ∧
    (((FFTW_Convolver_Full2D.init 3 3 3 3).convolve ones33 ones33).2.cols = 5) ∧
    ∀ i < 5, ∀ j < 5,
      |(((FFTW_Convolver_Full2D.init 3 3 3 3).convolve ones33 ones33).2.data i j) -
        refConv33 i j| ≤ 1 / 10000 := by
  refine ⟨by decide, by decide, ?_⟩
  intro i hi j hj
  interval_cases i <;> interval_cases j <;>
    norm_num [FFTW_Convolver_Full2D.convolve, FFTW_Convolver_Full2D.fshape0,
      FFTW_Convolver_Full2D.fshape1, FFTW_Convolver_Full2D.shape0,
      FFTW_Convolver_Full2D.shape1, FFTW_Convolver_Full2D.init, cconv,
      next_fast_len_five, Finset.sum_range_succ, write_leading, ones33, refConv33]

/-- C4 (amended): for a freshly constructed Autocorrelator with even positive
declared shape and an input of that shape, the call returns an array whose
maximum value occurs at the geometric center index `(s1r / 2, s1c / 2)`
(after the spectral shift), and that center value equals
`sum(A * A) / A.size` with `A.size` the element count of the original
unpadded input.  The evenness restriction is forced by the counterexample:
for odd declared shapes the spectral shift raises and no array is
returned. -/
theorem autocorrelation_peak (s1r s1c : ℕ) (A : NDArr)
    (hp0 : 0 < s1r) (hp1 : 0 < s1c) (he0 : s1r % 2 = 0) (he1 : s1c % 2 = 0)
    (hA0 : A.rows = s1r) (hA1 : A.cols = s1c) :
    ∃ R, ((FFTW_Autocorrelator_2D.init s1r s1c).autocorrelate A).2 = some R ∧
      (∀ i < s1r, ∀ j < s1c, R.data i j ≤ R.data (s1r / 2) (s1c / 2)) ∧
      R.data (s1r / 2) (s1c / 2) =
        (∑ k in Finset.range s1r, ∑ l in Finset.range s1c,
          A.data k l * A.data k l) / ((s1r : ℚ) * (s1c : ℚ)) := by
  obtain ⟨R, hR, hRr, hRc, hRd⟩ :=
    autocorrelate_spec (FFTW_Autocorrelator_2D.init s1r s1c) A he0 he1
  dsimp only [FFTW_Autocorrelator_2D.init] at hR hRr hRc hRd
  have hpk := hRd (s1r / 2) (by omega) (s1c / 2) (by omega)
  rw [show (s1r / 2 + s1r / 2) % s1r = 0 from by
      rw [show s1r / 2 + s1r / 2 = s1r from by omega, Nat.mod_self],
    show (s1c / 2 + s1c / 2) % s1c = 0 from by
      rw [show s1c / 2 + s1c / 2 = s1c from by omega, Nat.mod_self]] at hpk
  refine ⟨R, hR, ?_, ?_⟩
  · intro i hi j hj
    rw [hRd i hi j hj, hpk]
    have hsz : (0 : ℚ) < (A.rows : ℚ) * (A.cols : ℚ) := by
      have h0 : (0 : ℚ) < (A.rows : ℚ) := by rw [hA0]; exact_mod_cast hp0
      have h1 : (0 : ℚ) < (A.cols : ℚ) := by rw [hA1]; exact_mod_cast hp1
      exact mul_pos h0 h1
    rw [div_le_div_iff_of_pos_right hsz]
    exact cautocorr_le_center _ _ _ _ _
  · rw [hpk, cautocorr_zero]
    rw [show write_leading (fun _ _ => 0) A.rows A.cols A.data =
        write_leading (fun _ _ => 0) A.rows A.cols A.data from rfl]
    rw [sum_pad (next_fast_len s1r) (next_fast_len s1c) A.rows A.cols
      (by rw [hA0]; exact next_fast_len_le _) (by rw [hA1]; exact next_fast_len_le _)
      A.data]
    rw [hA0, hA1]

/-- C4 counterexample: for the odd declared shape `(1, 1)` the claim fails:
`autocorrelate` returns no array at all (the spectral shift raises a
broadcast error), so there is no maximum at a center index. -/
theorem autocorrelation_peak_counterexample :
    ((FFTW_Autocorrelator_2D.init 1 1).autocorrelate delta11).2 = none := rfl

/-- Witness for C4 at a concrete even-shape engine and input. -/
theorem autocorrelation_peak_witness :
    (0 < 2 ∧ (2 : ℕ) % 2 = 0 ∧ spike22.rows = 2 ∧ spike22.cols = 2) ∧
    ∃ R, ((FFTW_Autocorrelator_2D.init 2 2).autocorrelate spike22).2 = some R ∧
      (∀ i < 2, ∀ j < 2, R.data i j ≤ R.data (2 / 2) (2 / 2)) ∧
      R.data (2 / 2) (2 / 2) =
        (∑ k in Finset.range 2, ∑ l in Finset.range 2,
          spike22.data k l * spike22.data k l) / (((2 : ℕ) : ℚ) * ((2 : ℕ) : ℚ)) :=
  ⟨⟨by decide, rfl, rfl, rfl⟩,
    autocorrelation_peak 2 2 spike22 (by decide) (by decide) rfl rfl rfl rfl⟩

/-- C5 counterexample: with declared shape `(2, 2)` and the input having a
single nonzero entry at the origin, the result `R` satisfies `R[0,0] = 0` but
`R[2-1-0, 2-1-0] = R[1,1] = 1/4`, refuting the claimed point symmetry
`R[i,j] = R[n-1-i, m-1-j]`. -/
theorem symmetry_counterexample :
    (((FFTW_Autocorrelator_2D.init 2 2).autocorrelate spike22).2).isSome = true ∧
    probe (((FFTW_Autocorrelator_2D.init 2 2).autocorrelate spike22).2) 0 0 ≠
      probe (((FFTW_Autocorrelator_2D.init 2 2).autocorrelate spike22).2)
        (2 - 1 - 0) (2 - 1 - 0) := by
  refine ⟨rfl, ?_⟩
  norm_num [FFTW_Autocorrelator_2D.autocorrelate, FFTW_Autocorrelator_2D.init,
    FFTW_Autocorrelator_2D.fshape0, FFTW_Autocorrelator_2D.fshape1,
    next_fast_len_two, cautocorr, Finset.sum_range_succ, write_leading, spike22,
    probe, fast_fftshift, bcastOK]

/-- C5 (amended): for a freshly constructed Autocorrelator whose declared
shape has even positive row and column counts each already a fast transform
length (so the padded grid equals the declared grid), the result `R` is
symmetric about its center under the circular reflection
`R[i,j] = R[(s1r - i) % s1r, (s1c - j) % s1c]`.  The original reflection
`R[i,j] = R[n-1-i, m-1-j]` is refuted by the counterexample; the circular
reflection about the center index is what the shifted circular
autocorrelation satisfies, and for padded grids larger than the declared
grid the slicing breaks even this symmetry, hence the fast-length
hypothesis. -/
theorem symmetry_amended (s1r s1c : ℕ) (A : NDArr)
    (hp0 : 0 < s1r) (hp1 : 0 < s1c) (he0 : s1r % 2 = 0) (he1 : s1c % 2 = 0)
    (hf0 : next_fast_len s1r = s1r) (hf1 : next_fast_len s1c = s1c)
    (_hA0 : A.rows = s1r) (_hA1 : A.cols = s1c) :
    ∃ R, ((FFTW_Autocorrelator_2D.init s1r s1c).autocorrelate A).2 = some R ∧
      ∀ i < s1r, ∀ j < s1c,
        R.data i j = R.data ((s1r - i) % s1r) ((s1c - j) % s1c) := by
  obtain ⟨R, hR, hRr, hRc, hRd⟩ :=
    autocorrelate_spec (FFTW_Autocorrelator_2D.init s1r s1c) A he0 he1
  dsimp only [FFTW_Autocorrelator_2D.init] at hR hRr hRc hRd
  rw [hf0, hf1] at hRd
  refine ⟨R, hR, ?_⟩
  intro i hi j hj
  rw [hRd i hi j hj,
    hRd ((s1r - i) % s1r) (Nat.mod_lt _ hp0) ((s1c - j) % s1c) (Nat.mod_lt _ hp1)]
  congr 1
  rw [reflect_index s1r i hp0 he0 hi, reflect_index s1c j hp1 he1 hj]
  rw [← cautocorr_reflect s1r s1c
    (write_leading (fun _ _ => 0) A.rows A.cols A.data)
    ((i + s1r / 2) % s1r) ((j + s1c / 2) % s1c)]
  rw [Nat.mod_eq_of_lt (Nat.mod_lt (i + s1r / 2) hp0),
    Nat.mod_eq_of_lt (Nat.mod_lt (j + s1c / 2) hp1)]

/-- Witness for C5 at a concrete even fast-length shape. -/
theorem symmetry_amended_witness :
    (0 < 2 ∧ (2 : ℕ) % 2 = 0 ∧ next_fast_len 2 = 2 ∧ (constArr 2 2 1).rows = 2) ∧
    ∃ R, ((FFTW_Autocorrelator_2D.init 2 2).autocorrelate (constArr 2 2 1)).2 =
        some R ∧
      ∀ i < 2, ∀ j < 2, R.data i j = R.data ((2 - i) % 2) ((2 - j) % 2) :=
  ⟨⟨by decide, rfl, by decide, rfl⟩,
    symmetry_amended 2 2 (constArr 2 2 1) (by decide) (by decide) rfl rfl
      (by decide) (by decide) rfl rfl⟩
